import Mathlib

/-!
# Verification of the Tweet-Generator hash table (src/hashtable.py, src/linkedlist.py)

Shallow embedding of the two source files:

* `LinkedList` models `linkedlist.py`'s `LinkedList` class.  A well-formed
  chain state is represented by the ordered sequence of entries reachable
  from `head` (`items`) together with the maintained `size` counter
  (a Python `int`, so modelled as `Int`: the buggy `delete` decrements it
  even when nothing was removed).  The Python `head`/`tail` node references
  are, in a well-formed state, the first and last element of `items`.
* `HashTable` models `hashtable.py`'s `HashTable` class: a list of buckets
  (each a `LinkedList` of key-value pairs) plus the maintained total `size`.

Mutating Python methods become state-passing functions; a method that can
raise (`delete`, `replace`) additionally returns a `Bool` that is `true`
iff the call returned normally (`false` = the exception was raised; the
returned state is the state at raise time, since Python mutations performed
before the raise persist).  `get` returns `Option` (`none` = `KeyError`).
-/

namespace TweetGen

variable {α : Type} [DecidableEq α]

/-- One chain: the entries reachable from `head`, in order, plus the
maintained `size` counter (`self.size` in `linkedlist.py`). -/
structure LinkedList (α : Type) where
  items : List α
  size : Int
  deriving DecidableEq

/-- `LinkedList.__init__` with `items=None`: empty chain, `size = 0`. -/
def LinkedList.empty : LinkedList α := ⟨[], 0⟩

/-- `is_empty`: `self.head is None`. -/
def LinkedList.is_empty (ll : LinkedList α) : Bool := ll.items.isEmpty

/-- `length`: returns the maintained `self.size`. -/
def LinkedList.length (ll : LinkedList α) : Int := ll.size

/-- `append(item)`: new node becomes the tail (head too if the chain was
empty); `size += 1`. -/
def LinkedList.append (ll : LinkedList α) (item : α) : LinkedList α :=
  ⟨ll.items ++ [item], ll.size + 1⟩

/-- `prepend(item)`: new node becomes the head (tail too if the chain was
empty); `size += 1`. -/
def LinkedList.prepend (ll : LinkedList α) (item : α) : LinkedList α :=
  ⟨item :: ll.items, ll.size + 1⟩

/-- `LinkedList.__init__(items)`: appends each given item in order. -/
def LinkedList.ofList (l : List α) : LinkedList α :=
  l.foldl (fun ll item => ll.append item) LinkedList.empty

/-- `find(quality)`: scan from head, return the first item satisfying the
predicate, else `None`. -/
def LinkedList.find (ll : LinkedList α) (quality : α → Bool) : Option α :=
  ll.items.find? quality

/-- The effect of the multi-node `delete` scan on the sequence of nodes
reachable from `head`, entered at a live (still reachable) node.

In the source loop, `previous_node` always walks the original node sequence
and every pointer write targets `previous_node` (or `head`).  A node is
unlinked from the live chain exactly when its original predecessor is still
live and matches trigger the write `previous_node.next = current_node.next`
(middle) or `previous_node.next = None` (tail).  Hence, read from a live
node `a`: if the next original node `b` matches the item it is skipped
(and traversal resumes at the node after `b`, which stays live even if it
matches too, since its predecessor `b` is now dead); otherwise `b` is kept
and becomes the next live node. -/
def spliceScan (item : α) : List α → List α
  | [] => []
  | [a] => [a]
  | a :: b :: rest =>
    if b = item then a :: spliceScan item rest
    else a :: spliceScan item (b :: rest)

/-- `delete(item)`.  Returns the state after the call together with `true`
if the call returned normally, `false` if `ValueError` was raised.
Branches follow the source: empty chain (`self.is_empty()`), single node
(`self.head == self.tail`, node identity, i.e. exactly one node), and the
multi-node scan.  In the multi-node branch `self.size -= 1` runs
unconditionally, before the not-found check — the count-corruption quirk. -/
def LinkedList.delete (ll : LinkedList α) (item : α) : LinkedList α × Bool :=
  match ll.items with
  | [] => (ll, false)
  | [a] =>
    if a = item then (⟨[], ll.size - 1⟩, true) else (ll, false)
  | a :: b :: rest =>
    let newItems :=
      if a = item then spliceScan item (b :: rest)
      else spliceScan item (a :: b :: rest)
    (⟨newItems, ll.size - 1⟩, decide (item ∈ a :: b :: rest))

/-- The scan of `replace`: replace the first element equal to `item` by
`new_data`; `none` if no element matches (the `ValueError` case). -/
def replaceScan (item new_data : α) : List α → Option (List α)
  | [] => none
  | a :: rest =>
    if a = item then some (new_data :: rest)
    else (replaceScan item new_data rest).map (a :: ·)

/-- `replace(item, new_data)`: mutate the first matching node's data in
place; `size` unchanged; raises (`false`) if no node matches, leaving the
chain untouched. -/
def LinkedList.replace (ll : LinkedList α) (item new_data : α) :
    LinkedList α × Bool :=
  match replaceScan item new_data ll.items with
  | some l => (⟨l, ll.size⟩, true)
  | none => (ll, false)

/-! ## HashTable (`hashtable.py`)

Keys and values are generic; `hash` (Python's built-in `hash`, a total
deterministic function to `int`) is a parameter `h : κ → Int`. -/

variable {κ ν : Type} [DecidableEq κ] [DecidableEq ν]

/-- The table: `self.buckets` (a fixed list of chains of key-value pairs)
and the maintained total `self.size`. -/
structure HashTable (κ ν : Type) where
  buckets : List (LinkedList (κ × ν))
  size : Int
  deriving DecidableEq

/-- `HashTable.__init__(init_size)`: `init_size` empty chains, `size = 0`
(the Python default is `init_size=8`). -/
def HashTable.empty (init_size : Nat) : HashTable κ ν :=
  ⟨List.replicate init_size LinkedList.empty, 0⟩

/-- `self.buckets[i]`.  The default is never used when
`i < buckets.length`, which `_bucket_index` guarantees on a table with at
least one bucket (with zero buckets Python's `%` raises
`ZeroDivisionError` first; every theorem below assumes a positive bucket
count). -/
def HashTable.getBucket (t : HashTable κ ν) (i : Nat) : LinkedList (κ × ν) :=
  t.buckets.getD i LinkedList.empty

/-- `_bucket_index(key)`: `hash(key) % len(self.buckets)`.  Python's `%`
on a positive modulus is Euclidean remainder, i.e. `Int.emod`; the result
is a valid index, returned as `Nat`. -/
def bucketIndex (h : κ → Int) (n : Nat) (k : κ) : Nat :=
  (h k % (n : Int)).toNat

/-- `items()`: concatenate each bucket's `items()` in bucket order. -/
def HashTable.items (t : HashTable κ ν) : List (κ × ν) :=
  (t.buckets.map LinkedList.items).flatten

/-- `keys()`: for each bucket, collect the first component of each pair. -/
def HashTable.keys (t : HashTable κ ν) : List κ :=
  (t.buckets.map (fun b => b.items.map Prod.fst)).flatten

/-- `values()`: for each bucket, collect the second component of each pair. -/
def HashTable.values (t : HashTable κ ν) : List ν :=
  (t.buckets.map (fun b => b.items.map Prod.snd)).flatten

/-- `length()`: the maintained `self.size`. -/
def HashTable.length (t : HashTable κ ν) : Int := t.size

/-- `contains(key)`: scan the key's bucket, comparing keys only. -/
def HashTable.contains (h : κ → Int) (t : HashTable κ ν) (k : κ) : Bool :=
  (t.getBucket (bucketIndex h t.buckets.length k)).items.any
    (fun e => decide (e.1 = k))

/-- `get(key)`: scan the key's bucket; return the first matching pair's
value, `none` for the `KeyError` case. -/
def HashTable.get (h : κ → Int) (t : HashTable κ ν) (k : κ) : Option ν :=
  ((t.getBucket (bucketIndex h t.buckets.length k)).items.find?
    (fun e => decide (e.1 = k))).map Prod.snd

/-- `set(key, value)`: scan the key's bucket; on the first pair with a
matching key call the chain's `replace` with that full pair (count
unchanged), else `append` the new pair to the bucket and `size += 1`. -/
def HashTable.set (h : κ → Int) (t : HashTable κ ν) (k : κ) (v : ν) :
    HashTable κ ν :=
  let i := bucketIndex h t.buckets.length k
  let b := t.getBucket i
  match b.items.find? (fun e => decide (e.1 = k)) with
  | some e => ⟨t.buckets.set i (b.replace e (k, v)).1, t.size⟩
  | none => ⟨t.buckets.set i (b.append (k, v)), t.size + 1⟩

/-- `delete(key)`: scan the key's bucket; on the first pair with a
matching key call the chain's `delete` with that full pair and
`size -= 1`; else raise `KeyError` (`false`) leaving the table untouched. -/
def HashTable.delete (h : κ → Int) (t : HashTable κ ν) (k : κ) :
    HashTable κ ν × Bool :=
  let i := bucketIndex h t.buckets.length k
  let b := t.getBucket i
  match b.items.find? (fun e => decide (e.1 = k)) with
  | some e => (⟨t.buckets.set i (b.delete e).1, t.size - 1⟩, true)
  | none => (t, false)

/-- `iterate()`: yields the elements of `items()` in order. -/
def HashTable.iterate (t : HashTable κ ν) : List (κ × ν) := t.items

/-- `__setitem__`: delegates to `set`. -/
def HashTable.setitem (h : κ → Int) (t : HashTable κ ν) (k : κ) (v : ν) :
    HashTable κ ν :=
  t.set h k v

/-- `__getitem__`: delegates to `get`. -/
def HashTable.getitem (h : κ → Int) (t : HashTable κ ν) (k : κ) : Option ν :=
  t.get h k

/-- `__contains__`: delegates to `contains`. -/
def HashTable.memOp (h : κ → Int) (t : HashTable κ ν) (k : κ) : Bool :=
  t.contains h k

/-- `__len__`: returns `self.size` directly. -/
def HashTable.lenOp (t : HashTable κ ν) : Int := t.size

/-! ### The table invariant (spec section 3's data-model invariant) -/

/-- Well-formedness of a table state: at least one bucket, every stored
pair lives in the bucket its key hashes to, no bucket stores two pairs
with the same key, and the maintained total count equals the number of
stored pairs. -/
structure HashTable.WF (h : κ → Int) (t : HashTable κ ν) : Prop where
  pos : 0 < t.buckets.length
  placed : ∀ i, (hi : i < t.buckets.length) → ∀ e ∈ (t.getBucket i).items,
      bucketIndex h t.buckets.length e.1 = i
  nodupKeys : ∀ i, (_hi : i < t.buckets.length) →
      ((t.getBucket i).items.map Prod.fst).Nodup
  sizeOK : t.size = (t.items.length : Int)


/-- The table states reachable from a freshly constructed table through
any sequence of `set` and `delete` calls (a raised `KeyError` is handled
by the caller; the state after the raise is kept). -/
inductive Reachable (h : κ → Int) : HashTable κ ν → Prop
  | init (n : Nat) (hn : 0 < n) : Reachable h (HashTable.empty n)
  | set (t : HashTable κ ν) (k : κ) (v : ν) :
      Reachable h t → Reachable h (t.set h k v)
  | del (t : HashTable κ ν) (k : κ) :
      Reachable h t → Reachable h (t.delete h k).1


/-! ### Chain lemmas -/

/-- The multi-node delete scan does not change the reachable sequence when
no node matches. -/
theorem spliceScan_of_not_mem {item : α} :
    ∀ {l : List α}, item ∉ l → spliceScan item l = l
  | [], _ => rfl
  | [_], _ => rfl
  | _ :: b :: rest, hmem => by
    have hb : ¬(b = item) := fun e => hmem (by simp [e])
    have htl : item ∉ b :: rest := fun hm => hmem (List.mem_cons_of_mem _ hm)
    simp only [spliceScan, if_neg hb]
    exact congrArg _ (spliceScan_of_not_mem htl)

/-- The multi-node delete scan, entered at a live non-matching node, on a
sequence holding exactly one match: exactly that element is dropped. -/
theorem spliceScan_middle {item : α} :
    ∀ (l₁ l₂ : List α), l₁ ≠ [] → item ∉ l₁ → item ∉ l₂ →
      spliceScan item (l₁ ++ item :: l₂) = l₁ ++ l₂
  | [], _, hne, _, _ => absurd rfl hne
  | [a], l₂, _, _, h₂ => by
    simp only [List.cons_append, List.nil_append, spliceScan, if_pos rfl]
    exact congrArg _ (spliceScan_of_not_mem h₂)
  | a :: c :: r, l₂, _, h₁, h₂ => by
    have hc : ¬(c = item) := fun e => h₁ (by simp [e])
    have htl : item ∉ c :: r := fun hm => h₁ (List.mem_cons_of_mem _ hm)
    simp only [List.cons_append, spliceScan, if_neg hc]
    have := spliceScan_middle (c :: r) l₂ (List.cons_ne_nil _ _) htl h₂
    simpa using congrArg (a :: ·) this

/-- `delete` on a chain holding the item exactly once, decomposed around
the unique occurrence: exactly that node is removed, the count drops by
one, and the call returns normally. -/
theorem LinkedList.delete_eq_of_unique (ll : LinkedList α) {item : α}
    {l₁ l₂ : List α} (hd : ll.items = l₁ ++ item :: l₂)
    (h₁ : item ∉ l₁) (h₂ : item ∉ l₂) :
    ll.delete item = (⟨l₁ ++ l₂, ll.size - 1⟩, true) := by
  obtain ⟨l, s⟩ := ll
  simp only at hd
  subst hd
  match l₁, l₂ with
  | [], [] => simp [LinkedList.delete]
  | [], c :: r =>
    have : item ∉ c :: r := h₂
    simp [LinkedList.delete, spliceScan_of_not_mem this]
  | a :: r₁, l₂ =>
    have ha : ¬(a = item) := fun e => h₁ (by simp [e])
    cases hr : r₁ ++ item :: l₂ with
    | nil => exact absurd hr (by simp)
    | cons c rest =>
      have hmem : item ∈ c :: rest := by
        rw [← hr]; exact List.mem_append_right _ (List.mem_cons_self _ _)
      have hsplice : spliceScan item (a :: r₁ ++ item :: l₂) = (a :: r₁) ++ l₂ :=
        spliceScan_middle (a :: r₁) l₂ (List.cons_ne_nil _ _) h₁ h₂
      simp only [List.cons_append, hr] at hsplice ⊢
      simp [LinkedList.delete, if_neg ha, hsplice, hmem]

/-- `delete` with an item that matches no node: the exception is raised;
in the multi-node branch the count is nonetheless decremented, in the
empty and single-node branches the state is untouched. -/
theorem LinkedList.delete_not_found {ll : LinkedList α} {item : α}
    (h : item ∉ ll.items) :
    (ll.delete item).2 = false ∧
    (ll.delete item).1.items = ll.items ∧
    ((2 ≤ ll.items.length → (ll.delete item).1.size = ll.size - 1) ∧
     (ll.items.length ≤ 1 → ll.delete item = (ll, false))) := by
  obtain ⟨l, s⟩ := ll
  match l with
  | [] => simp [LinkedList.delete]
  | [a] =>
    have ha : ¬(a = item) := fun e => h (by simp [e])
    simp [LinkedList.delete, if_neg ha]
  | a :: b :: rest =>
    have ha : ¬(a = item) := fun e => h (by simp [e])
    have htl : item ∉ a :: b :: rest := h
    have hnm : ¬(item ∈ a :: b :: rest) := htl
    simp [LinkedList.delete, if_neg ha, spliceScan_of_not_mem htl, hnm]

/-- The `replace` scan around the first matching node. -/
theorem replaceScan_of_split {item new_data : α} :
    ∀ {l₁ : List α} (l₂ : List α), item ∉ l₁ →
      replaceScan item new_data (l₁ ++ item :: l₂) = some (l₁ ++ new_data :: l₂)
  | [], _, _ => by simp [replaceScan]
  | a :: r, l₂, h₁ => by
    have ha : ¬(a = item) := fun e => h₁ (by simp [e])
    have htl : item ∉ r := fun hm => h₁ (List.mem_cons_of_mem _ hm)
    simp [replaceScan, if_neg ha, replaceScan_of_split l₂ htl]

/-- `replace` on a chain decomposed around the first node equal to the
old item: that node's data is replaced in place, the count is unchanged,
and the call returns normally. -/
theorem LinkedList.replace_eq_of_split {ll : LinkedList α}
    {item : α} (new_data : α) {l₁ l₂ : List α} (hd : ll.items = l₁ ++ item :: l₂)
    (h₁ : item ∉ l₁) :
    ll.replace item new_data = (⟨l₁ ++ new_data :: l₂, ll.size⟩, true) := by
  obtain ⟨l, s⟩ := ll
  simp only at hd
  subst hd
  simp [LinkedList.replace, replaceScan_of_split l₂ h₁]

omit [DecidableEq α] in
/-- `append` in terms of the reachable sequence. -/
theorem LinkedList.items_append (ll : LinkedList α) (item : α) :
    (ll.append item).items = ll.items ++ [item] := rfl


/-! ### Generic list helpers -/

/-- Updating one sub-list of a list of lists changes the flattened length
by the difference of the two sub-lists' lengths. -/
theorem flatten_length_set {β : Type} :
    ∀ (L : List (List β)) (i : Nat) (l' : List β) (h : i < L.length),
      (L.set i l').flatten.length + (L.get ⟨i, h⟩).length =
        L.flatten.length + l'.length
  | _ :: _, 0, _, _ => by
    simp [List.length_append]; omega
  | a :: L, i + 1, l', h => by
    have ih := flatten_length_set L i l' (by simpa using h)
    simp only [List.set_cons_succ, List.flatten_cons, List.length_append,
      List.get_cons_succ]
    omega

/-- If every sub-list except the one at index `i` is filtered away, the
filtered flattening is the filtered sub-list at `i`. -/
theorem filter_flatten_eq_single {β : Type} (p : β → Bool) :
    ∀ (L : List (List β)) (i : Nat) (hi : i < L.length),
      (∀ j, (hj : j < L.length) → j ≠ i → (L.get ⟨j, hj⟩).filter p = []) →
      L.flatten.filter p = (L.get ⟨i, hi⟩).filter p
  | a :: L, 0, _, hother => by
    have hrest : ∀ l ∈ L, l.filter p = [] := by
      intro l hl
      obtain ⟨j, hj, rfl⟩ := List.mem_iff_getElem.1 hl
      simpa using hother (j + 1) (by simpa using Nat.succ_lt_succ hj) (by simp)
    have : L.flatten.filter p = [] := by
      rw [List.filter_flatten, List.flatten_eq_nil_iff]
      intro l hl
      obtain ⟨l₀, hl₀, rfl⟩ := List.mem_map.1 hl
      exact hrest l₀ hl₀
    simp [List.filter_append, this]
  | a :: L, i + 1, hi, hother => by
    have ha : a.filter p = [] := by simpa using hother 0 (by simp) (by simp)
    have ih := filter_flatten_eq_single p L i (by simpa using hi) (fun j hj hne => by
      simpa using hother (j + 1) (by simpa using Nat.succ_lt_succ hj)
        (by simpa using hne))
    simpa [List.filter_append, ha] using ih

/-- A flattening is duplicate-free when each sub-list is duplicate-free
and every element determines the index of the sub-list it lives in. -/
theorem nodup_flatten_of_index {β : Type} (idx : β → Nat) (L : List (List β))
    (hnd : ∀ i, (hi : i < L.length) → (L.get ⟨i, hi⟩).Nodup)
    (hpl : ∀ i, (hi : i < L.length) → ∀ x ∈ L.get ⟨i, hi⟩, idx x = i) :
    L.flatten.Nodup := by
  rw [List.nodup_flatten]
  refine ⟨fun l hl => ?_, ?_⟩
  · obtain ⟨i, hi, rfl⟩ := List.mem_iff_getElem.1 hl
    exact hnd i hi
  · rw [List.pairwise_iff_getElem]
    intro i j hi hj hij
    intro x hxi hxj
    have h1 := hpl i hi x (by simpa using hxi)
    have h2 := hpl j hj x (by simpa using hxj)
    omega

/-! ### Bucket access lemmas -/

omit [DecidableEq κ] in
/-- The bucket index is always a valid index into a nonempty bucket list
(Python's `%` on a positive modulus returns a value in `[0, n)`). -/
theorem bucketIndex_lt (h : κ → Int) {n : Nat} (hn : 0 < n) (k : κ) :
    bucketIndex h n k < n := by
  have h0 : (n : Int) ≠ 0 := by exact_mod_cast hn.ne'
  have h1 : 0 ≤ h k % (n : Int) := Int.emod_nonneg _ h0
  have h2 : h k % (n : Int) < (n : Int) := Int.emod_lt_of_pos _ (by exact_mod_cast hn)
  exact (Int.toNat_lt h1).2 h2

omit [DecidableEq κ] [DecidableEq ν] in
theorem getBucket_eq_get (t : HashTable κ ν) (i : Nat)
    (hi : i < t.buckets.length) : t.getBucket i = t.buckets.get ⟨i, hi⟩ := by
  simp [HashTable.getBucket, List.getD_eq_getElem?_getD, List.getElem?_eq_getElem hi]

omit [DecidableEq κ] [DecidableEq ν] in
theorem getBucket_set_self (t : HashTable κ ν) (i : Nat)
    (hi : i < t.buckets.length) (b : LinkedList (κ × ν)) (s : Int) :
    (⟨t.buckets.set i b, s⟩ : HashTable κ ν).getBucket i = b := by
  simp [HashTable.getBucket, List.getD_eq_getElem?_getD,
    List.getElem?_set_self (by simpa using hi)]

omit [DecidableEq κ] [DecidableEq ν] in
theorem getBucket_set_ne (t : HashTable κ ν) {i j : Nat} (hne : j ≠ i)
    (b : LinkedList (κ × ν)) (s : Int) :
    (⟨t.buckets.set i b, s⟩ : HashTable κ ν).getBucket j = t.getBucket j := by
  simp [HashTable.getBucket, List.getD_eq_getElem?_getD,
    List.getElem?_set_ne (Ne.symm hne)]

/-! ### Table operation helper lemmas -/

theorem set_buckets_length (h : κ → Int) (t : HashTable κ ν) (k : κ) (v : ν) :
    (t.set h k v).buckets.length = t.buckets.length := by
  cases hf : (t.getBucket (bucketIndex h t.buckets.length k)).items.find?
      (fun e => decide (e.1 = k)) with
  | none => simp [HashTable.set, hf]
  | some e => simp [HashTable.set, hf]

theorem delete_buckets_length (h : κ → Int) (t : HashTable κ ν) (k : κ) :
    (t.delete h k).1.buckets.length = t.buckets.length := by
  cases hf : (t.getBucket (bucketIndex h t.buckets.length k)).items.find?
      (fun e => decide (e.1 = k)) with
  | none => simp [HashTable.delete, hf]
  | some e => simp [HashTable.delete, hf]

omit [DecidableEq ν] in
theorem contains_eq_true_iff (h : κ → Int) (t : HashTable κ ν) (k : κ) :
    t.contains h k = true ↔
      ∃ e ∈ (t.getBucket (bucketIndex h t.buckets.length k)).items, e.1 = k := by
  simp [HashTable.contains, List.any_eq_true]

omit [DecidableEq ν] in
theorem contains_eq_false_iff (h : κ → Int) (t : HashTable κ ν) (k : κ) :
    t.contains h k = false ↔
      (t.getBucket (bucketIndex h t.buckets.length k)).items.find?
        (fun e => decide (e.1 = k)) = none := by
  simp [HashTable.contains, List.any_eq_false, List.find?_eq_none]

/-- `set` when the scan finds an existing pair with the key: the chain's
`replace` swaps in the new pair at that node, the total count is kept. -/
theorem set_eq_of_find_some (h : κ → Int) (t : HashTable κ ν) (k : κ) (v : ν)
    {e : κ × ν} {as bs : List (κ × ν)}
    (hf : (t.getBucket (bucketIndex h t.buckets.length k)).items.find?
      (fun x => decide (x.1 = k)) = some e)
    (hd : (t.getBucket (bucketIndex h t.buckets.length k)).items = as ++ e :: bs)
    (hem : e ∉ as) :
    t.set h k v = ⟨t.buckets.set (bucketIndex h t.buckets.length k)
      ⟨as ++ (k, v) :: bs, (t.getBucket (bucketIndex h t.buckets.length k)).size⟩,
      t.size⟩ := by
  have hrepl := LinkedList.replace_eq_of_split (k, v) hd hem
  simp [HashTable.set, hf, hrepl]

/-- `set` when the scan finds no pair with the key: the chain's `append`
adds the new pair at the tail, the total count increments. -/
theorem set_eq_of_find_none (h : κ → Int) (t : HashTable κ ν) (k : κ) (v : ν)
    (hf : (t.getBucket (bucketIndex h t.buckets.length k)).items.find?
      (fun x => decide (x.1 = k)) = none) :
    t.set h k v = ⟨t.buckets.set (bucketIndex h t.buckets.length k)
      ((t.getBucket (bucketIndex h t.buckets.length k)).append (k, v)),
      t.size + 1⟩ := by
  simp [HashTable.set, hf]

omit [DecidableEq ν] in
/-- A successful `find?` splits the scanned bucket items around the first
key match; the matched pair carries the key, and everything before it has
a different key. -/
theorem find_key_split {l : List (κ × ν)} {k : κ} {e : κ × ν}
    (hf : l.find? (fun x => decide (x.1 = k)) = some e) :
    e.1 = k ∧ ∃ as bs, l = as ++ e :: bs ∧ (∀ a ∈ as, ¬a.1 = k) ∧ e ∉ as := by
  obtain ⟨hpe, as, bs, hd, hfront⟩ := List.find?_eq_some.1 hf
  have hek : e.1 = k := of_decide_eq_true hpe
  have hfront' : ∀ a ∈ as, ¬a.1 = k := fun a ha => by simpa using hfront a ha
  exact ⟨hek, as, bs, hd, hfront',
    fun hmem => (hfront' e hmem) hek⟩

/-- After `set(k, v)`, looking `k` up returns `v`. -/
theorem get_set_self (h : κ → Int) (t : HashTable κ ν) (k : κ) (v : ν)
    (hpos : 0 < t.buckets.length) :
    (t.set h k v).get h k = some v := by
  have hilt := bucketIndex_lt h hpos k
  cases hf : (t.getBucket (bucketIndex h t.buckets.length k)).items.find?
      (fun e => decide (e.1 = k)) with
  | some e =>
    obtain ⟨hek, as, bs, hd, hfront, hem⟩ := find_key_split hf
    rw [set_eq_of_find_some h t k v hf hd hem]
    have hfn : as.find? (fun e => decide (e.1 = k)) = none :=
      List.find?_eq_none.2 (fun a ha => by simpa using hfront a ha)
    simp [HashTable.get, List.length_set,
      getBucket_set_self t _ hilt, List.find?_append, hfn]
  | none =>
    rw [set_eq_of_find_none h t k v hf]
    simp [HashTable.get, List.length_set, getBucket_set_self t _ hilt,
      LinkedList.items_append, List.find?_append, hf]

/-- After `set(k, v)`, the table contains `k`. -/
theorem contains_set_self (h : κ → Int) (t : HashTable κ ν) (k : κ) (v : ν)
    (hpos : 0 < t.buckets.length) :
    (t.set h k v).contains h k = true := by
  have hg := get_set_self h t k v hpos
  simp only [HashTable.get] at hg
  obtain ⟨e, he, -⟩ := Option.map_eq_some'.1 hg
  exact (contains_eq_true_iff h _ k).2
    ⟨e, List.mem_of_find?_eq_some he,
      of_decide_eq_true (List.find?_some (p := fun x : κ × ν => decide (x.1 = k)) he)⟩

/-- `set` on a key the table contains keeps the total count. -/
theorem size_set_of_contains_true (h : κ → Int) (t : HashTable κ ν) (k : κ)
    (v : ν) (hc : t.contains h k = true) : (t.set h k v).size = t.size := by
  cases hf : (t.getBucket (bucketIndex h t.buckets.length k)).items.find?
      (fun e => decide (e.1 = k)) with
  | none =>
    rw [(contains_eq_false_iff h t k).2 hf] at hc
    cases hc
  | some e => simp [HashTable.set, hf]

/-- `set` on an absent key increments the total count by one. -/
theorem size_set_of_contains_false (h : κ → Int) (t : HashTable κ ν) (k : κ)
    (v : ν) (hc : t.contains h k = false) :
    (t.set h k v).size = t.size + 1 := by
  rw [set_eq_of_find_none h t k v ((contains_eq_false_iff h t k).1 hc)]

omit [DecidableEq κ] [DecidableEq ν] in
/-- Updating one bucket shifts the total number of stored pairs by the
difference between the new and old versions of that bucket. -/
theorem items_length_set_bucket (t : HashTable κ ν) (i : Nat)
    (hi : i < t.buckets.length) (b : LinkedList (κ × ν)) (s : Int) :
    (⟨t.buckets.set i b, s⟩ : HashTable κ ν).items.length +
        (t.getBucket i).items.length =
      t.items.length + b.items.length := by
  have hmap := flatten_length_set (t.buckets.map LinkedList.items) i b.items
    (by simpa using hi)
  simpa [HashTable.items, List.map_set, getBucket_eq_get t i hi,
    List.get_eq_getElem, List.getElem_map] using hmap

omit [DecidableEq κ] [DecidableEq ν] in
/-- A freshly constructed table with a positive bucket count is
well-formed. -/
theorem wf_empty (h : κ → Int) {n : Nat} (hn : 0 < n) :
    (HashTable.empty n : HashTable κ ν).WF h := by
  refine ⟨by simpa [HashTable.empty] using hn, ?_, ?_, ?_⟩
  · intro i hi e he
    have hb : (HashTable.empty n : HashTable κ ν).getBucket i = LinkedList.empty := by
      simp only [HashTable.empty] at hi ⊢
      simp only [List.length_replicate] at hi
      simp [HashTable.getBucket, List.getD_eq_getElem?_getD,
        List.getElem?_replicate_of_lt hi]
    rw [hb] at he
    cases he
  · intro i hi
    have hb : (HashTable.empty n : HashTable κ ν).getBucket i = LinkedList.empty := by
      simp only [HashTable.empty] at hi ⊢
      simp only [List.length_replicate] at hi
      simp [HashTable.getBucket, List.getD_eq_getElem?_getD,
        List.getElem?_replicate_of_lt hi]
    rw [hb]
    exact List.nodup_nil
  · simp [HashTable.empty, HashTable.items, LinkedList.empty,
      List.map_replicate, List.length_flatten, List.sum_replicate]

omit [DecidableEq κ] [DecidableEq ν] in
/-- Replacing one bucket preserves well-formedness, provided the new
bucket's contents are placed and duplicate-free and the new total count
accounts for the length difference. -/
theorem wf_update (h : κ → Int) {t : HashTable κ ν} (hwf : t.WF h)
    {i : Nat} (hi : i < t.buckets.length) {b : LinkedList (κ × ν)} {s : Int}
    (hplace : ∀ e ∈ b.items, bucketIndex h t.buckets.length e.1 = i)
    (hnodup : (b.items.map Prod.fst).Nodup)
    (hsize : s = t.size + (b.items.length : Int)
      - ((t.getBucket i).items.length : Int)) :
    (⟨t.buckets.set i b, s⟩ : HashTable κ ν).WF h := by
  refine ⟨by simpa using hwf.pos, ?_, ?_, ?_⟩
  · intro j hj x hx
    simp only [List.length_set] at hj ⊢
    by_cases hji : j = i
    · subst hji
      rw [getBucket_set_self t _ hi] at hx
      exact hplace x hx
    · rw [getBucket_set_ne t hji] at hx
      exact hwf.placed j hj x hx
  · intro j hj
    simp only [List.length_set] at hj
    by_cases hji : j = i
    · subst hji
      rw [getBucket_set_self t _ hi]
      exact hnodup
    · rw [getBucket_set_ne t hji]
      exact hwf.nodupKeys j hj
  · have hlen := items_length_set_bucket t i hi b s
    have hs := hwf.sizeOK
    simp only [HashTable.items] at hlen hs ⊢
    omega

/-- `set` preserves well-formedness. -/
theorem wf_set (h : κ → Int) {t : HashTable κ ν} (hwf : t.WF h) (k : κ)
    (v : ν) : (t.set h k v).WF h := by
  have hilt := bucketIndex_lt h hwf.pos k
  cases hf : (t.getBucket (bucketIndex h t.buckets.length k)).items.find?
      (fun e => decide (e.1 = k)) with
  | some e =>
    obtain ⟨hek, as, bs, hd, hfront, hem⟩ := find_key_split hf
    rw [set_eq_of_find_some h t k v hf hd hem]
    refine wf_update h hwf hilt ?_ ?_ ?_
    · intro x hx
      rcases List.mem_append.1 hx with hxa | hxc
      · exact hwf.placed _ hilt x (by rw [hd]; exact List.mem_append_left _ hxa)
      · rcases List.mem_cons.1 hxc with rfl | hxb
        · rfl
        · exact hwf.placed _ hilt x
            (by rw [hd]; exact List.mem_append_right _ (List.mem_cons_of_mem _ hxb))
    · show ((as ++ (k, v) :: bs).map Prod.fst).Nodup
      have hkeys : (as ++ (k, v) :: bs).map Prod.fst = (as ++ e :: bs).map Prod.fst := by
        simp [hek]
      rw [hkeys, ← hd]
      exact hwf.nodupKeys _ hilt
    · show t.size = t.size + ((as ++ (k, v) :: bs).length : Int)
        - ((t.getBucket (bucketIndex h t.buckets.length k)).items.length : Int)
      have hbl : (t.getBucket (bucketIndex h t.buckets.length k)).items.length
          = (as ++ (k, v) :: bs).length := by rw [hd]; simp
      omega
  | none =>
    rw [set_eq_of_find_none h t k v hf]
    have hnok : ∀ x ∈ (t.getBucket (bucketIndex h t.buckets.length k)).items,
        ¬x.1 = k := fun x hx => by
      simpa using List.find?_eq_none.1 hf x hx
    refine wf_update h hwf hilt ?_ ?_ ?_
    · intro x hx
      rcases List.mem_append.1 hx with hxa | hxc
      · exact hwf.placed _ hilt x hxa
      · rcases List.mem_cons.1 hxc with rfl | hxb
        · rfl
        · cases hxb
    · show (((t.getBucket (bucketIndex h t.buckets.length k)).items
        ++ [(k, v)]).map Prod.fst).Nodup
      rw [List.map_append]
      refine List.nodup_append.2 ⟨hwf.nodupKeys _ hilt, List.nodup_singleton _, ?_⟩
      intro a ha hb
      obtain ⟨x, hx, rfl⟩ := List.mem_map.1 ha
      have hxk : x.1 = k := by simpa using hb
      exact hnok x hx hxk
    · show t.size + 1 = t.size
        + (((t.getBucket (bucketIndex h t.buckets.length k)).items
            ++ [(k, v)]).length : Int)
        - ((t.getBucket (bucketIndex h t.buckets.length k)).items.length : Int)
      simp only [List.length_append, List.length_cons, List.length_nil]
      omega

/-- `delete` preserves well-formedness. -/
theorem wf_delete (h : κ → Int) {t : HashTable κ ν} (hwf : t.WF h) (k : κ) :
    (t.delete h k).1.WF h := by
  have hilt := bucketIndex_lt h hwf.pos k
  cases hf : (t.getBucket (bucketIndex h t.buckets.length k)).items.find?
      (fun e => decide (e.1 = k)) with
  | none =>
    have hid : (t.delete h k).1 = t := by simp [HashTable.delete, hf]
    rw [hid]
    exact hwf
  | some e =>
    obtain ⟨hek, as, bs, hd, hfront, hem⟩ := find_key_split hf
    have hnd := hwf.nodupKeys _ hilt
    rw [hd] at hnd
    have hkbs : ∀ x ∈ bs, ¬x.1 = k := by
      intro x hx hxk
      rw [List.map_append, List.map_cons] at hnd
      have := (List.nodup_append.1 hnd).2.1
      rw [List.nodup_cons] at this
      exact this.1 (hek ▸ hxk ▸ List.mem_map_of_mem Prod.fst hx)
    have hebs : e ∉ bs := fun hmem => hkbs e hmem hek
    have hdel := LinkedList.delete_eq_of_unique
      (t.getBucket (bucketIndex h t.buckets.length k)) hd hem hebs
    have hD : t.delete h k =
        (⟨t.buckets.set (bucketIndex h t.buckets.length k)
          ⟨as ++ bs, (t.getBucket (bucketIndex h t.buckets.length k)).size - 1⟩,
          t.size - 1⟩, true) := by
      simp [HashTable.delete, hf, hdel]
    rw [hD]
    refine wf_update h hwf hilt ?_ ?_ ?_
    · intro x hx
      rcases List.mem_append.1 hx with hxa | hxb
      · exact hwf.placed _ hilt x (by rw [hd]; exact List.mem_append_left _ hxa)
      · exact hwf.placed _ hilt x
          (by rw [hd]; exact List.mem_append_right _ (List.mem_cons_of_mem _ hxb))
    · show ((as ++ bs).map Prod.fst).Nodup
      exact hnd.sublist (((List.sublist_cons_self e bs).append_left as).map Prod.fst)
    · show t.size - 1 = t.size + ((as ++ bs).length : Int)
        - ((t.getBucket (bucketIndex h t.buckets.length k)).items.length : Int)
      have hbl : (t.getBucket (bucketIndex h t.buckets.length k)).items.length
          = (as ++ e :: bs).length := by rw [hd]
      simp only [List.length_append, List.length_cons] at hbl ⊢
      omega

/-- Every reachable table state is well-formed. -/
theorem wf_of_reachable {h : κ → Int} {t : HashTable κ ν}
    (hr : Reachable h t) : t.WF h := by
  induction hr with
  | init n hn => exact wf_empty h hn
  | set t k v _ ih => exact wf_set h ih k v
  | del t k _ ih => exact wf_delete h ih k

omit [DecidableEq κ] [DecidableEq ν] in
/-- In a bucket with duplicate-free keys, nothing after the pair carrying
key `k` can carry `k` as well. -/
theorem no_key_in_tail {as bs : List (κ × ν)} {e : κ × ν} {k : κ}
    (hnd : ((as ++ e :: bs).map Prod.fst).Nodup) (hek : e.1 = k) :
    ∀ x ∈ bs, ¬x.1 = k := by
  intro x hx hxk
  rw [List.map_append, List.map_cons] at hnd
  have h2 := (List.nodup_append.1 hnd).2.1
  rw [List.nodup_cons] at h2
  exact h2.1 (hek ▸ hxk ▸ List.mem_map_of_mem Prod.fst hx)

omit [DecidableEq ν] in
/-- With all pairs stored in the bucket their key hashes to, the pairs of
the whole table carrying key `k` are exactly those of `k`'s bucket. -/
theorem filter_items_eq_bucket (h : κ → Int) {t : HashTable κ ν}
    (hpos : 0 < t.buckets.length)
    (hplaced : ∀ i, (hi : i < t.buckets.length) →
      ∀ e ∈ (t.getBucket i).items, bucketIndex h t.buckets.length e.1 = i)
    (k : κ) :
    t.items.filter (fun e => decide (e.1 = k)) =
      (t.getBucket (bucketIndex h t.buckets.length k)).items.filter
        (fun e => decide (e.1 = k)) := by
  have hilt := bucketIndex_lt h hpos k
  have hother : ∀ j, (hj : j < (t.buckets.map LinkedList.items).length) →
      j ≠ bucketIndex h t.buckets.length k →
      ((t.buckets.map LinkedList.items).get ⟨j, hj⟩).filter
        (fun e => decide (e.1 = k)) = [] := by
    intro j hj hne
    rw [List.filter_eq_nil_iff]
    intro x hx
    have hj2 : j < t.buckets.length := by simpa using hj
    have hx2 : x ∈ (t.getBucket j).items := by
      rw [getBucket_eq_get t j hj2]
      simpa [List.get_eq_getElem, List.getElem_map] using hx
    have hpx := hplaced j hj2 x hx2
    simp only [decide_eq_true_eq]
    intro hxk
    exact hne (by rw [← hpx, hxk])
  have hmain := filter_flatten_eq_single (fun e : κ × ν => decide (e.1 = k))
    (t.buckets.map LinkedList.items) (bucketIndex h t.buckets.length k)
    (by simpa using hilt) hother
  simpa [HashTable.items, getBucket_eq_get t _ hilt, List.get_eq_getElem,
    List.getElem_map] using hmain

/-! ### The claims -/

/-- **C1.** For every well-formed table state, key `k` and value `v`:
`set(k, v)` followed immediately by `get(k)` returns `v`; after
`set(k, v)` the table stores exactly one pair for `k`, namely `(k, v)`;
if `k` was absent the pair is appended to `k`'s bucket and the total
count increments by one; if `k` was present the count is unchanged (the
pair is replaced in place). -/
theorem set_then_get (h : κ → Int) (t : HashTable κ ν) (k : κ) (v : ν)
    (hwf : t.WF h) :
    (t.set h k v).get h k = some v ∧
    (t.set h k v).items.filter (fun e => decide (e.1 = k)) = [(k, v)] ∧
    (t.contains h k = false →
      (t.set h k v).length = t.length + 1 ∧
      (t.set h k v).getBucket (bucketIndex h t.buckets.length k) =
        (t.getBucket (bucketIndex h t.buckets.length k)).append (k, v)) ∧
    (t.contains h k = true → (t.set h k v).length = t.length) := by
  have hpos := hwf.pos
  have hilt := bucketIndex_lt h hpos k
  have hwf2 := wf_set h hwf k v
  refine ⟨get_set_self h t k v hpos, ?_, ?_,
    fun hc => size_set_of_contains_true h t k v hc⟩
  · have hfilter := filter_items_eq_bucket h hwf2.pos hwf2.placed k
    have hlen : (t.set h k v).buckets.length = t.buckets.length :=
      set_buckets_length h t k v
    rw [hlen] at hfilter
    rw [hfilter]
    cases hf : (t.getBucket (bucketIndex h t.buckets.length k)).items.find?
        (fun e => decide (e.1 = k)) with
    | some e =>
      obtain ⟨hek, as, bs, hd, hfront, hem⟩ := find_key_split hf
      have hnd := hwf.nodupKeys _ hilt
      rw [hd] at hnd
      have hkbs := no_key_in_tail hnd hek
      have h1 : as.filter (fun e : κ × ν => decide (e.1 = k)) = [] :=
        List.filter_eq_nil_iff.2 (fun a ha => by simpa using hfront a ha)
      have h2 : bs.filter (fun e : κ × ν => decide (e.1 = k)) = [] :=
        List.filter_eq_nil_iff.2 (fun a ha => by simpa using hkbs a ha)
      rw [set_eq_of_find_some h t k v hf hd hem, getBucket_set_self t _ hilt]
      show (as ++ (k, v) :: bs).filter (fun e => decide (e.1 = k)) = [(k, v)]
      simp [List.filter_append, h1, h2]
    | none =>
      have hnok : ∀ x ∈ (t.getBucket (bucketIndex h t.buckets.length k)).items,
          ¬x.1 = k := fun x hx => by
        simpa using List.find?_eq_none.1 hf x hx
      have h1 : (t.getBucket (bucketIndex h t.buckets.length k)).items.filter
          (fun e : κ × ν => decide (e.1 = k)) = [] :=
        List.filter_eq_nil_iff.2 (fun a ha => by simpa using hnok a ha)
      rw [set_eq_of_find_none h t k v hf, getBucket_set_self t _ hilt]
      show ((t.getBucket (bucketIndex h t.buckets.length k)).items
          ++ [(k, v)]).filter (fun e => decide (e.1 = k)) = [(k, v)]
      simp [List.filter_append, h1]
  · intro hc
    refine ⟨size_set_of_contains_false h t k v hc, ?_⟩
    have hf := (contains_eq_false_iff h t k).1 hc
    rw [set_eq_of_find_none h t k v hf]
    exact getBucket_set_self t _ hilt _ _

/-- Witness for C1 at a concrete input. -/
theorem set_then_get_witness :
    (HashTable.empty 8 : HashTable Int Int).WF (fun z => z) ∧
    ((HashTable.empty 8 : HashTable Int Int).set (fun z => z) 3 5).get
      (fun z => z) 3 = some 5 :=
  ⟨wf_empty (fun z => z) (by decide),
    (set_then_get (fun z => z) (HashTable.empty 8) 3 5
      (wf_empty (fun z => z) (by decide))).1⟩

/-- **C2.** For every well-formed table state and key `k`: if `k` is
present, `delete(k)` returns normally, afterwards `contains(k)` is false
and `length()` is exactly one less than before; if `k` is absent,
`delete(k)` raises `KeyError` and leaves the whole table state (hence
`length()`) unchanged — the count is never decremented without an actual
removal. -/
theorem delete_spec (h : κ → Int) (t : HashTable κ ν) (k : κ)
    (hwf : t.WF h) :
    (t.contains h k = true →
      (t.delete h k).2 = true ∧
      (t.delete h k).1.contains h k = false ∧
      (t.delete h k).1.length = t.length - 1) ∧
    (t.contains h k = false → t.delete h k = (t, false)) := by
  have hpos := hwf.pos
  have hilt := bucketIndex_lt h hpos k
  constructor
  · intro hc
    cases hf : (t.getBucket (bucketIndex h t.buckets.length k)).items.find?
        (fun e => decide (e.1 = k)) with
    | none =>
      rw [(contains_eq_false_iff h t k).2 hf] at hc
      cases hc
    | some e =>
      obtain ⟨hek, as, bs, hd, hfront, hem⟩ := find_key_split hf
      have hnd := hwf.nodupKeys _ hilt
      rw [hd] at hnd
      have hkbs := no_key_in_tail hnd hek
      have hebs : e ∉ bs := fun hmem => hkbs e hmem hek
      have hdel := LinkedList.delete_eq_of_unique
        (t.getBucket (bucketIndex h t.buckets.length k)) hd hem hebs
      have hD : t.delete h k =
          (⟨t.buckets.set (bucketIndex h t.buckets.length k)
              ⟨as ++ bs,
                (t.getBucket (bucketIndex h t.buckets.length k)).size - 1⟩,
            t.size - 1⟩, true) := by
        simp [HashTable.delete, hf, hdel]
      rw [hD]
      refine ⟨rfl, ?_, rfl⟩
      have hone : ∀ x ∈ as ++ bs, ¬x.1 = k := by
        intro x hx
        rcases List.mem_append.1 hx with h1 | h2
        · exact hfront x h1
        · exact hkbs x h2
      apply (contains_eq_false_iff h _ k).2
      simp only [List.length_set]
      rw [getBucket_set_self t _ hilt]
      exact List.find?_eq_none.2 (fun x hx => by simpa using hone x hx)
  · intro hc
    have hf := (contains_eq_false_iff h t k).1 hc
    simp [HashTable.delete, hf]

/-- Witness for C2 at a concrete input (present key). -/
theorem delete_spec_witness :
    ((HashTable.empty 8 : HashTable Int Int).set (fun z => z) 3 5).WF
      (fun z => z) ∧
    (((HashTable.empty 8 : HashTable Int Int).set (fun z => z) 3 5).contains
        (fun z => z) 3 = true →
      ((((HashTable.empty 8 : HashTable Int Int).set (fun z => z) 3 5).delete
          (fun z => z) 3).2 = true ∧
       (((HashTable.empty 8 : HashTable Int Int).set (fun z => z) 3 5).delete
          (fun z => z) 3).1.contains (fun z => z) 3 = false ∧
       (((HashTable.empty 8 : HashTable Int Int).set (fun z => z) 3 5).delete
          (fun z => z) 3).1.length =
         ((HashTable.empty 8 : HashTable Int Int).set (fun z => z) 3 5).length
           - 1)) :=
  ⟨wf_set (fun z => z) (wf_empty (fun z => z) (by decide)) 3 5,
    (delete_spec (fun z => z)
      ((HashTable.empty 8 : HashTable Int Int).set (fun z => z) 3 5) 3
      (wf_set (fun z => z) (wf_empty (fun z => z) (by decide)) 3 5)).1⟩

/-- **C3.** For every table state with at least one bucket, key `k` and
values `v₁, v₂`: `set(k, v₁)` then `set(k, v₂)` leaves `length()` as it
was after the first `set`, and `get(k)` afterwards returns `v₂`. -/
theorem set_set_same_key (h : κ → Int) (t : HashTable κ ν) (k : κ)
    (v₁ v₂ : ν) (hpos : 0 < t.buckets.length) :
    ((t.set h k v₁).set h k v₂).length = (t.set h k v₁).length ∧
    ((t.set h k v₁).set h k v₂).get h k = some v₂ := by
  have hpos2 : 0 < (t.set h k v₁).buckets.length := by
    rw [set_buckets_length]; exact hpos
  exact ⟨size_set_of_contains_true h _ k v₂ (contains_set_self h t k v₁ hpos),
    get_set_self h _ k v₂ hpos2⟩

/-- Witness for C3 at a concrete input. -/
theorem set_set_same_key_witness :
    0 < (HashTable.empty 8 : HashTable Int Int).buckets.length ∧
    ((((HashTable.empty 8 : HashTable Int Int).set (fun z => z) 3 5).set
        (fun z => z) 3 7).length =
      ((HashTable.empty 8 : HashTable Int Int).set (fun z => z) 3 5).length ∧
     (((HashTable.empty 8 : HashTable Int Int).set (fun z => z) 3 5).set
        (fun z => z) 3 7).get (fun z => z) 3 = some 7) :=
  ⟨by decide,
    set_set_same_key (fun z => z) (HashTable.empty 8) 3 5 7 (by decide)⟩

/-- **C4.** In every table state reachable from a freshly constructed
table by any sequence of `set` and `delete` operations, `items()` returns
exactly `length()` pairs and the keys of those pairs are pairwise
distinct. -/
theorem reachable_count_matches_items (h : κ → Int) (t : HashTable κ ν)
    (hr : Reachable h t) :
    (t.items.length : Int) = t.length ∧ (t.items.map Prod.fst).Nodup := by
  have hwf := wf_of_reachable hr
  refine ⟨hwf.sizeOK.symm, ?_⟩
  have hrw : t.items.map Prod.fst =
      (t.buckets.map (fun b => b.items.map Prod.fst)).flatten := by
    simp only [HashTable.items, List.map_flatten, List.map_map]
    rfl
  rw [hrw]
  apply nodup_flatten_of_index (fun key => bucketIndex h t.buckets.length key)
  · intro i hi
    have hi2 : i < t.buckets.length := by simpa using hi
    have hg : (t.buckets.map (fun b => b.items.map Prod.fst)).get ⟨i, hi⟩ =
        (t.getBucket i).items.map Prod.fst := by
      simp [List.get_eq_getElem, List.getElem_map, getBucket_eq_get t i hi2]
    rw [hg]
    exact hwf.nodupKeys i hi2
  · intro i hi x hx
    have hi2 : i < t.buckets.length := by simpa using hi
    have hx2 : x ∈ (t.getBucket i).items.map Prod.fst := by
      rw [getBucket_eq_get t i hi2]
      simpa [List.get_eq_getElem, List.getElem_map] using hx
    obtain ⟨e, he, rfl⟩ := List.mem_map.1 hx2
    exact hwf.placed i hi2 e he

/-- Witness for C4 at a concrete reachable state. -/
theorem reachable_count_matches_items_witness :
    Reachable (fun z => z)
      ((HashTable.empty 8 : HashTable Int Int).set (fun z => z) 3 5) ∧
    ((((HashTable.empty 8 : HashTable Int Int).set
        (fun z => z) 3 5).items.length : Int) =
      ((HashTable.empty 8 : HashTable Int Int).set (fun z => z) 3 5).length) :=
  ⟨Reachable.set (HashTable.empty 8) 3 5 (Reachable.init 8 (by decide)),
    (reachable_count_matches_items (fun z => z)
      ((HashTable.empty 8 : HashTable Int Int).set (fun z => z) 3 5)
      (Reachable.set (HashTable.empty 8) 3 5
        (Reachable.init 8 (by decide)))).1⟩

/-- **C5.** The code contradicts the chain invariant "count always equals
the number of reachable nodes": deleting the absent `2` from the two-node
chain `[0, 1]` raises `NotFoundError` yet leaves the maintained count at
`1` while two nodes remain reachable from head. -/
theorem delete_breaks_count_invariant :
    ((LinkedList.ofList [0, 1] : LinkedList Nat).delete 2).1.size = 1 ∧
    ((LinkedList.ofList [0, 1] : LinkedList Nat).delete 2).1.items.length = 2 ∧
    ((LinkedList.ofList [0, 1] : LinkedList Nat).delete 2).2 = false := by
  decide

/-- **C6.** For every chain with at least two nodes none of which matches
the item, `delete` raises `NotFoundError` and nonetheless decrements the
maintained count by one, whereas on an empty chain or a one-node chain
with a non-matching entry it raises `NotFoundError` with the count
unchanged. -/
theorem delete_absent_decrements_multi (ll : LinkedList α) (item : α)
    (h : item ∉ ll.items) :
    (2 ≤ ll.items.length →
      (ll.delete item).2 = false ∧ (ll.delete item).1.size = ll.size - 1) ∧
    (ll.items.length ≤ 1 →
      (ll.delete item).2 = false ∧ (ll.delete item).1.size = ll.size) := by
  obtain ⟨h1, h2, h3, h4⟩ := LinkedList.delete_not_found h
  exact ⟨fun hl => ⟨h1, h3 hl⟩, fun hl => ⟨h1, by rw [h4 hl]⟩⟩

/-- Witness for C6 at a concrete input. -/
theorem delete_absent_decrements_multi_witness :
    (7 ∉ (LinkedList.ofList [0, 1] : LinkedList Nat).items) ∧
    ((2 ≤ (LinkedList.ofList [0, 1] : LinkedList Nat).items.length →
      ((LinkedList.ofList [0, 1] : LinkedList Nat).delete 7).2 = false ∧
      ((LinkedList.ofList [0, 1] : LinkedList Nat).delete 7).1.size =
        (LinkedList.ofList [0, 1] : LinkedList Nat).size - 1) ∧
     ((LinkedList.ofList [0, 1] : LinkedList Nat).items.length ≤ 1 →
      ((LinkedList.ofList [0, 1] : LinkedList Nat).delete 7).2 = false ∧
      ((LinkedList.ofList [0, 1] : LinkedList Nat).delete 7).1.size =
        (LinkedList.ofList [0, 1] : LinkedList Nat).size)) :=
  ⟨by decide,
    delete_absent_decrements_multi (LinkedList.ofList [0, 1]) 7 (by decide)⟩

/-- **C7 (counterexample).** The claim "delete removes exactly the first
matching node, leaving later duplicate occurrences in place" fails on the
chain `[0, 1, 0]`: deleting `0` yields the reachable sequence `[1]`, not
`[1, 0]`. -/
theorem delete_first_only_counterexample :
    ((LinkedList.ofList [0, 1, 0] : LinkedList Nat).delete 0).1.items = [1] ∧
    ((LinkedList.ofList [0, 1, 0] : LinkedList Nat).delete 0).1.items
      ≠ [1, 0] := by
  decide

/-- **C7 (amended).** For every chain in which exactly one node's entry
equals the given entry, `delete` removes exactly that node, leaving all
other nodes in their original order, and decrements the count by one. -/
theorem delete_unique_occurrence (ll : LinkedList α) (item : α)
    (h : ll.items.count item = 1) :
    ll.delete item = (⟨ll.items.erase item, ll.size - 1⟩, true) := by
  have hmem : item ∈ ll.items := by
    by_contra hnm
    rw [List.count_eq_zero.2 hnm] at h
    cases h
  obtain ⟨as, bs, hd⟩ := List.append_of_mem hmem
  have hc := h
  rw [hd] at hc
  simp only [List.count_append, List.count_cons_self] at hc
  have has : item ∉ as := List.count_eq_zero.1 (by omega)
  have hbs : item ∉ bs := List.count_eq_zero.1 (by omega)
  have hdel := LinkedList.delete_eq_of_unique ll hd has hbs
  rw [hdel, hd, List.erase_append_right _ has, List.erase_cons_head]

/-- Witness for the amended C7 at a concrete input. -/
theorem delete_unique_occurrence_witness :
    (LinkedList.ofList [5, 6, 7] : LinkedList Nat).items.count 6 = 1 ∧
    (LinkedList.ofList [5, 6, 7] : LinkedList Nat).delete 6 =
      (⟨[5, 7], 2⟩, true) := by
  refine ⟨by decide, ?_⟩
  rw [delete_unique_occurrence (LinkedList.ofList [5, 6, 7]) 6 (by decide)]
  decide

/-- **C8.** Each point operation computes the single bucket index
`hash(k) mod bucketCount` and reads or mutates only the chain at that
index: `set` and `delete` leave every other bucket's chain exactly
unchanged, and `contains`/`get` depend only on the chain at that index. -/
theorem point_ops_touch_single_bucket (h : κ → Int) (t : HashTable κ ν)
    (k : κ) (v : ν) (j : Nat)
    (hj : j ≠ bucketIndex h t.buckets.length k) :
    (t.set h k v).getBucket j = t.getBucket j ∧
    (t.delete h k).1.getBucket j = t.getBucket j ∧
    (∀ t2 : HashTable κ ν, t2.buckets.length = t.buckets.length →
      t2.getBucket (bucketIndex h t.buckets.length k) =
        t.getBucket (bucketIndex h t.buckets.length k) →
      t2.contains h k = t.contains h k ∧ t2.get h k = t.get h k) := by
  refine ⟨?_, ?_, ?_⟩
  · cases hf : (t.getBucket (bucketIndex h t.buckets.length k)).items.find?
        (fun e => decide (e.1 = k)) with
    | some e =>
      simp only [HashTable.set, hf]
      exact getBucket_set_ne t hj _ _
    | none =>
      simp only [HashTable.set, hf]
      exact getBucket_set_ne t hj _ _
  · cases hf : (t.getBucket (bucketIndex h t.buckets.length k)).items.find?
        (fun e => decide (e.1 = k)) with
    | some e =>
      simp only [HashTable.delete, hf]
      exact getBucket_set_ne t hj _ _
    | none =>
      simp only [HashTable.delete, hf]
  · intro t2 hlen hbeq
    constructor
    · simp only [HashTable.contains, hlen, hbeq]
    · simp only [HashTable.get, hlen, hbeq]

/-- Witness for C8 at a concrete input. -/
theorem point_ops_touch_single_bucket_witness :
    (1 ≠ bucketIndex (fun z => z)
        (HashTable.empty 8 : HashTable Int Int).buckets.length 3) ∧
    (((HashTable.empty 8 : HashTable Int Int).set (fun z => z) 3 5).getBucket 1
      = (HashTable.empty 8 : HashTable Int Int).getBucket 1) :=
  ⟨by decide,
    (point_ops_touch_single_bucket (fun z => z) (HashTable.empty 8) 3 5 1
      (by decide)).1⟩

/-- **C9.** The bracket/indexing sugar coincides with the named
operations in every state: `table[k]` returns exactly what `get(k)`
returns (failing exactly when it fails), `table[k] = v` has the same
effect as `set(k, v)`, `k in table` equals `contains(k)`, and
`len(table)` equals `length()`. -/
theorem sugar_ops_eq_named (h : κ → Int) (t : HashTable κ ν) (k : κ)
    (v : ν) :
    t.getitem h k = t.get h k ∧ t.setitem h k v = t.set h k v ∧
    t.memOp h k = t.contains h k ∧ t.lenOp = t.length :=
  ⟨rfl, rfl, rfl, rfl⟩

/-- **C10.** For every chain and every entry matching no stored entry,
`delete` raises its error while leaving the node structure intact: the
sequence of entries reachable from head — in particular its head and its
last element, i.e. the `head`/`tail` references — is identical to before;
only the maintained count can differ. -/
theorem delete_absent_leaves_structure (ll : LinkedList α) (item : α)
    (h : item ∉ ll.items) :
    (ll.delete item).2 = false ∧
    (ll.delete item).1.items = ll.items ∧
    (ll.delete item).1.items.head? = ll.items.head? ∧
    (ll.delete item).1.items.getLast? = ll.items.getLast? := by
  obtain ⟨h1, h2, -⟩ := LinkedList.delete_not_found h
  exact ⟨h1, h2, by rw [h2], by rw [h2]⟩

/-- Witness for C10 at a concrete input. -/
theorem delete_absent_leaves_structure_witness :
    (9 ∉ (LinkedList.ofList [3, 4] : LinkedList Nat).items) ∧
    (((LinkedList.ofList [3, 4] : LinkedList Nat).delete 9).2 = false ∧
     ((LinkedList.ofList [3, 4] : LinkedList Nat).delete 9).1.items =
       (LinkedList.ofList [3, 4] : LinkedList Nat).items ∧
     ((LinkedList.ofList [3, 4] : LinkedList Nat).delete 9).1.items.head? =
       (LinkedList.ofList [3, 4] : LinkedList Nat).items.head? ∧
     ((LinkedList.ofList [3, 4] : LinkedList Nat).delete 9).1.items.getLast? =
       (LinkedList.ofList [3, 4] : LinkedList Nat).items.getLast?) :=
  ⟨by decide,
    delete_absent_leaves_structure (LinkedList.ofList [3, 4]) 9 (by decide)⟩

end TweetGen
